import Mathlib

/-!
Verification of the ingestion-and-retrieval pipeline of the financial RAG
repository (backend/nlp/chunk.js, backend/nlp/preprocess.js,
backend/nlp/embeddings.js, backend/db/pinecone.js, backend/routes/search.js).

JavaScript strings are embedded as lists of characters (`Str`), JavaScript
numbers used as scores/weights as rationals, and the external collaborators
(the tiktoken encoder, the embedding provider, the vector store) as explicit
parameters.  Every definition is translated from the source files; the few
places where a third-party collaborator's behaviour is needed are marked in
the doc comments.
-/

namespace RagFin

/-- JavaScript strings, embedded as lists of characters. -/
abbrev Str := List Char

/-- Whitespace test modelling the regex class \s on the whitespace characters
that occur in the pipeline (space, tab, newline, carriage return). -/
def isWsC (c : Char) : Bool :=
  c == ' ' || c == '\t' || c == '\n' || c == '\r'

/-- Word character test modelling the regex class \w: ASCII alphanumerics and
underscore. -/
def isWordC (c : Char) : Bool :=
  c.isAlphanum || c == '_'

/-- JavaScript String.prototype.trim on the left: drop leading whitespace. -/
def trimL (s : Str) : Str := s.dropWhile isWsC

/-- JavaScript String.prototype.trim on the right: drop trailing whitespace. -/
def trimR (s : Str) : Str := (s.reverse.dropWhile isWsC).reverse

/-- JavaScript String.prototype.trim: drop leading and trailing whitespace. -/
def trimStr (s : Str) : Str := trimR (trimL s)

/-- Word-counting state machine: `wcAux inWord s` counts the maximal runs of
non-whitespace characters in `s`, given that `inWord` records whether the
character just before `s` was a non-whitespace character.  This models the
length of `text.split(/\s+/).filter(w => w.length > 0)` from countTokens in
backend/nlp/chunk.js. -/
def wcAux : Bool → Str → Nat
  | _, [] => 0
  | inw, c :: rest =>
    if isWsC c then wcAux false rest
    else (if inw then 0 else 1) + wcAux true rest

/-- Number of whitespace-separated words of a string (JS
`text.split(/\s+/).filter(w => w.length > 0).length`). -/
def wordsCount (s : Str) : Nat := wcAux false s

/-- Math.ceil(w * 1.3) for a natural number w, as used by the word-based
approximation in countTokens (backend/nlp/chunk.js line 34). -/
def ceil13of10 (w : Nat) : Nat := (13 * w + 9) / 10

/-- Math.ceil(n / 4), the character-based fallback in countTokens
(backend/nlp/chunk.js line 39). -/
def ceilDiv4 (n : Nat) : Nat := (n + 3) / 4

/-- The token-counting configuration of backend/nlp/chunk.js: either the
tiktoken encoder was initialised (the external encoder is the collaborator
function `enc`, returning `none` when `encoder.encode` throws), or it was not
available and the word-based approximation is used. -/
inductive TokenCounter where
  | precise (enc : Str → Option Nat)
  | approx

/-- countTokens from backend/nlp/chunk.js lines 22-41: empty/non-string input
counts as 0; with an encoder, the encoder's token count is used and an
encoder exception falls back to Math.ceil(text.length / 4); without an
encoder, Math.ceil(words * 1.3) is used. -/
def countTokens (tcK : TokenCounter) (s : Str) : Nat :=
  if s = [] then 0
  else
    match tcK with
    | .precise enc =>
      match enc s with
      | some n => n
      | none => ceilDiv4 s.length
    | .approx => ceil13of10 (wordsCount s)

/-- The word-state after scanning `s`, starting from state `b`: non-empty `s`
ends in a word exactly when its last character is not whitespace. -/
def wcState (b : Bool) (s : Str) : Bool :=
  s.foldl (fun _ c => !(isWsC c)) b

theorem wcAux_append (s t : Str) : ∀ b, wcAux b (s ++ t) = wcAux b s + wcAux (wcState b s) t := by
  induction s with
  | nil => intro b; simp [wcAux, wcState]
  | cons c rest ih =>
    intro b
    by_cases h : isWsC c
    · simp [wcAux, h, ih, wcState, List.foldl_cons]
    · simp [wcAux, h, ih, wcState, List.foldl_cons]
      omega

theorem wordsCount_append_le (s t : Str) : wordsCount s ≤ wordsCount (s ++ t) := by
  unfold wordsCount
  rw [wcAux_append]
  exact Nat.le_add_right _ _

theorem wordsCount_append_space (a b : Str) :
    wordsCount (a ++ ' ' :: b) = wordsCount a + wordsCount b := by
  unfold wordsCount
  rw [wcAux_append]
  simp [wcAux, isWsC]

theorem ceil13of10_mono {a b : Nat} (h : a ≤ b) : ceil13of10 a ≤ ceil13of10 b := by
  unfold ceil13of10
  omega

theorem ceil13of10_subadd (a b : Nat) : ceil13of10 (a + b) ≤ ceil13of10 a + ceil13of10 b := by
  unfold ceil13of10
  omega

theorem countTokens_nil (tcK : TokenCounter) : countTokens tcK [] = 0 := by
  simp [countTokens]

theorem countTokens_approx_subadd (a b : Str) :
    countTokens .approx (a ++ ' ' :: b) ≤ countTokens .approx a + countTokens .approx b := by
  cases a with
  | nil =>
    cases b with
    | nil => simp [countTokens, wordsCount, wcAux, isWsC, ceil13of10]
    | cons c rest =>
      have h : wordsCount (' ' :: c :: rest) = wordsCount (c :: rest) := by
        simp [wordsCount, wcAux, isWsC]
      simp only [countTokens, List.nil_append]
      simp [h]
  | cons x xs =>
    cases b with
    | nil =>
      have h : wordsCount (x :: (xs ++ [' '])) = wordsCount (x :: xs) := by
        have := wordsCount_append_space (x :: xs) []
        simpa using this
      simp only [countTokens]
      simp [h, Nat.le_add_right]
    | cons y ys =>
      simp only [countTokens]
      rw [if_neg (by simp), if_neg (by simp), if_neg (by simp)]
      rw [wordsCount_append_space]
      exact ceil13of10_subadd _ _

/-- C10.  countTokens (backend/nlp/chunk.js lines 22-41) returns a
non-negative integer, and for non-empty strings s and t the count of s ++ t
is at least the count of s: unconditionally on the word-based approximation
path and on the character-based fallback path (both implemented in the
repository), and on the precise path whenever the external tiktoken
collaborator reports counts m for s and n for s ++ t with m ≤ n (the encoder
itself is outside the repository, so its monotonicity is a collaborator
hypothesis). -/
theorem countTokens_nonneg_mono (s t : Str) (hs : s ≠ []) (ht : t ≠ []) :
    (∀ tcK, 0 ≤ countTokens tcK s) ∧
    countTokens .approx s ≤ countTokens .approx (s ++ t) ∧
    (∀ enc, enc s = none → enc (s ++ t) = none →
      countTokens (.precise enc) s ≤ countTokens (.precise enc) (s ++ t)) ∧
    (∀ enc m n, enc s = some m → enc (s ++ t) = some n → m ≤ n →
      countTokens (.precise enc) s ≤ countTokens (.precise enc) (s ++ t)) := by
  have hst : s ++ t ≠ [] := by
    intro h
    exact hs (List.append_eq_nil.mp h).1
  refine ⟨fun _ => Nat.zero_le _, ?_, ?_, ?_⟩
  · simp only [countTokens, if_neg hs, if_neg hst]
    exact ceil13of10_mono (wordsCount_append_le s t)
  · intro enc h1 h2
    simp only [countTokens, if_neg hs, if_neg hst, h1, h2]
    unfold ceilDiv4
    have : s.length ≤ (s ++ t).length := by simp
    omega
  · intro enc m n h1 h2 hmn
    simp only [countTokens, if_neg hs, if_neg hst, h1, h2]
    exact hmn

/-- Witness for C10 at concrete inputs: both fallback paths and the precise
path evaluated at "ab" against "a". -/
theorem countTokens_nonneg_mono_witness :
    countTokens .approx ('a' :: []) ≤ countTokens .approx ('a' :: 'b' :: []) ∧
    countTokens (.precise (fun l => some l.length)) ('a' :: []) ≤
      countTokens (.precise (fun l => some l.length)) ('a' :: 'b' :: []) := by
  have h := countTokens_nonneg_mono ('a' :: []) ('b' :: []) (by decide) (by decide)
  exact ⟨h.2.1, h.2.2.2 (fun l => some l.length) 1 2 rfl rfl (by decide)⟩

/-- A clean sentence: non-empty, with no leading or trailing whitespace.
The sentence sequences fed to the chunk loop have this shape (they are
trimmed, length-filtered segments, see tokenizeSentences below). -/
def CleanS (s : Str) : Prop :=
  s ≠ [] ∧ (∀ c, s.head? = some c → isWsC c = false) ∧
    (∀ c, s.getLast? = some c → isWsC c = false)

/-- JavaScript Array.prototype.join(' '). -/
def joinSp : List Str → Str
  | [] => []
  | [s] => s
  | s :: t :: rest => s ++ ' ' :: joinSp (t :: rest)

/-- The shape `s0 ++ " " ++ s1 ++ " " ++ ...` built by repeatedly executing
`currentChunk += sentence + ' '` in chunkText (backend/nlp/chunk.js line 123). -/
def glue : List Str → Str
  | [] => []
  | s :: rest => s ++ ' ' :: glue rest

theorem joinSp_cons (s : Str) {l : List Str} (hl : l ≠ []) :
    joinSp (s :: l) = s ++ ' ' :: joinSp l := by
  cases l with
  | nil => exact absurd rfl hl
  | cons t r => rfl

theorem glue_snoc (l : List Str) (s : Str) : glue (l ++ [s]) = glue l ++ s ++ [' '] := by
  induction l with
  | nil => simp [glue]
  | cons t r ih => simp [glue, ih]

theorem glue_eq_joinSp {l : List Str} (hl : l ≠ []) : glue l = joinSp l ++ [' '] := by
  induction l with
  | nil => exact absurd rfl hl
  | cons s r ih =>
    cases r with
    | nil => simp [glue, joinSp]
    | cons t r2 =>
      rw [glue, ih (by simp), joinSp_cons s (by simp)]
      simp

theorem glue_ne_nil {l : List Str} (hl : l ≠ []) : glue l ≠ [] := by
  cases l with
  | nil => exact absurd rfl hl
  | cons s r =>
    cases s with
    | nil => simp [glue]
    | cons c cs => simp [glue]

theorem joinSp_append {a b : List Str} (ha : a ≠ []) (hb : b ≠ []) :
    joinSp (a ++ b) = joinSp a ++ ' ' :: joinSp b := by
  induction a with
  | nil => exact absurd rfl ha
  | cons s r ih =>
    cases r with
    | nil =>
      rw [List.singleton_append, joinSp_cons s hb, joinSp]
    | cons t r2 =>
      have h1 : joinSp ((s :: t :: r2 : List Str) ++ b) = s ++ ' ' :: joinSp ((t :: r2 : List Str) ++ b) := by
        rw [List.cons_append]
        exact joinSp_cons s (by simp)
      rw [h1, ih (by simp), @joinSp_cons s (t :: r2) (by simp)]
      simp

theorem joinSp_head? {s : Str} (hs : s ≠ []) (l : List Str) :
    (joinSp (s :: l)).head? = s.head? := by
  cases s with
  | nil => exact absurd rfl hs
  | cons c cs =>
    cases l with
    | nil => rfl
    | cons t r => rw [joinSp_cons _ (by simp)]; rfl

theorem joinSp_ne_nil {l : List Str} (hl : l ≠ []) (hc : ∀ s ∈ l, CleanS s) :
    joinSp l ≠ [] := by
  cases l with
  | nil => exact absurd rfl hl
  | cons s r =>
    have hs : s ≠ [] := (hc s (by simp)).1
    intro h
    have := joinSp_head? hs r
    rw [h] at this
    cases s with
    | nil => exact hs rfl
    | cons c cs => simp at this

theorem joinSp_getLast? {l : List Str} (hl : l ≠ []) (hc : ∀ s ∈ l, CleanS s) :
    ∃ c, (joinSp l).getLast? = some c ∧ isWsC c = false := by
  induction l with
  | nil => exact absurd rfl hl
  | cons s r ih =>
    cases r with
    | nil =>
      have hs := hc s (by simp)
      obtain ⟨c, hcc⟩ := List.getLast?_isSome.mpr hs.1 |> Option.isSome_iff_exists.mp
      exact ⟨c, by simpa [joinSp] using hcc, hs.2.2 c hcc⟩
    | cons t r2 =>
      have hr : (t :: r2 : List Str) ≠ [] := by simp
      have hcr : ∀ x ∈ (t :: r2 : List Str), CleanS x := fun x hx => hc x (by simp [hx])
      obtain ⟨c, h1, h2⟩ := ih hr hcr
      refine ⟨c, ?_, h2⟩
      have hj : joinSp (t :: r2) ≠ [] := joinSp_ne_nil hr hcr
      rw [joinSp_cons s hr, List.getLast?_append_of_ne_nil _ (by simp)]
      cases hjj : joinSp (t :: r2) with
      | nil => exact absurd hjj hj
      | cons d l2 => rw [List.getLast?_cons_cons, ← hjj, h1]

theorem dropWhile_head?_false {p : Char → Bool} :
    ∀ (l : Str) (c : Char), (l.dropWhile p).head? = some c → p c = false := by
  intro l
  induction l with
  | nil => intro c h; simp [List.dropWhile] at h
  | cons x r ih =>
    intro c h
    by_cases hx : p x
    · rw [List.dropWhile_cons, if_pos hx] at h
      exact ih c h
    · rw [List.dropWhile_cons, if_neg hx] at h
      simp at h
      subst h
      simpa using hx

theorem dropWhile_suffix_self (p : Char → Bool) (l : Str) : l.dropWhile p <:+ l := by
  induction l with
  | nil => exact List.nil_suffix
  | cons x r ih =>
    by_cases hx : p x
    · rw [List.dropWhile_cons, if_pos hx]
      exact ih.trans (List.suffix_cons x r)
    · rw [List.dropWhile_cons, if_neg hx]

theorem trimR_isPrefix (s : Str) : trimR s <+: s := by
  unfold trimR
  have h := dropWhile_suffix_self isWsC s.reverse
  have := List.reverse_prefix.mpr h
  simpa using this

theorem head?_of_isPrefix {x y : Str} (h : x <+: y) (hx : x ≠ []) : y.head? = x.head? := by
  obtain ⟨t, ht⟩ := h
  cases x with
  | nil => exact absurd rfl hx
  | cons c r => rw [← ht]; rfl

theorem trimL_eq_self {s : Str} (h : ∀ c, s.head? = some c → isWsC c = false) :
    trimL s = s := by
  cases s with
  | nil => rfl
  | cons c r =>
    unfold trimL
    rw [List.dropWhile_cons, if_neg (by simp [h c rfl])]

theorem trimR_eq_self {s : Str} (h : ∀ c, s.getLast? = some c → isWsC c = false) :
    trimR s = s := by
  unfold trimR
  have h2 : ∀ c, s.reverse.head? = some c → isWsC c = false := by
    intro c hc
    rw [List.head?_reverse] at hc
    exact h c hc
  have h3 : s.reverse.dropWhile isWsC = s.reverse := by
    cases hrev : s.reverse with
    | nil => rfl
    | cons d r =>
      have hd : isWsC d = false := h2 d (by rw [hrev]; rfl)
      rw [List.dropWhile_cons, if_neg (by simp [hd])]
  rw [h3, List.reverse_reverse]

theorem trimStr_eq_self {s : Str} (h : CleanS s) : trimStr s = s := by
  unfold trimStr
  rw [trimL_eq_self h.2.1, trimR_eq_self h.2.2]

theorem cleanS_trimStr {s : Str} (h : trimStr s ≠ []) : CleanS (trimStr s) := by
  refine ⟨h, ?_, ?_⟩
  · intro c hc
    have hpre := trimR_isPrefix (trimL s)
    have hne : trimR (trimL s) ≠ [] := h
    have heq : (trimL s).head? = (trimR (trimL s)).head? := head?_of_isPrefix hpre hne
    have h2 : (trimL s).head? = some c := by rw [heq]; exact hc
    exact dropWhile_head?_false s c h2
  · intro c hc
    unfold trimStr trimR at hc
    rw [← List.head?_reverse, List.reverse_reverse] at hc
    exact dropWhile_head?_false (trimL s).reverse c hc

theorem trimStr_nil : trimStr [] = [] := rfl

theorem trimStr_idem (s : Str) : trimStr (trimStr s) = trimStr s := by
  by_cases h : trimStr s = []
  · rw [h]; rfl
  · exact trimStr_eq_self (cleanS_trimStr h)

theorem trimStr_pad_glue {buf : List Str} (pad : Str)
    (hpad : pad = [] ∨ pad = [' ']) (hb : buf ≠ []) (hc : ∀ s ∈ buf, CleanS s) :
    trimStr (pad ++ glue buf) = joinSp buf := by
  rw [glue_eq_joinSp hb]
  have hjoin : joinSp buf ≠ [] := joinSp_ne_nil hb hc
  have hhead : ∀ c, (joinSp buf).head? = some c → isWsC c = false := by
    intro c hcc
    cases buf with
    | nil => exact absurd rfl hb
    | cons s r =>
      rw [joinSp_head? (hc s (by simp)).1 r] at hcc
      exact (hc s (by simp)).2.1 c hcc
  obtain ⟨lastc, hlast1, hlast2⟩ := joinSp_getLast? hb hc
  have step1 : trimL (pad ++ (joinSp buf ++ [' '])) = joinSp buf ++ [' '] := by
    have inner : trimL (joinSp buf ++ [' ']) = joinSp buf ++ [' '] := by
      apply trimL_eq_self
      intro c hcc
      cases hj : joinSp buf with
      | nil => exact absurd hj hjoin
      | cons d r =>
        have hdc : some d = some c := by rw [← hcc, hj]; rfl
        have hcd : d = c := by injection hdc
        rw [← hcd]
        exact hhead d (by rw [hj]; rfl)
    rcases hpad with h | h
    · rw [h]; simpa using inner
    · rw [h]
      unfold trimL at inner ⊢
      rw [List.singleton_append, List.dropWhile_cons, if_pos (by simp [isWsC])]
      exact inner
  have step2 : trimR (joinSp buf ++ [' ']) = joinSp buf := by
    unfold trimR
    rw [List.reverse_append]
    simp only [List.reverse_singleton, List.singleton_append]
    rw [List.dropWhile_cons, if_pos (by simp [isWsC])]
    have : (joinSp buf).reverse.dropWhile isWsC = (joinSp buf).reverse := by
      cases hrev : (joinSp buf).reverse with
      | nil => rfl
      | cons c r =>
        rw [List.dropWhile_cons, if_neg ?_]
        have : (joinSp buf).getLast? = some c := by
          rw [← List.head?_reverse, hrev]; rfl
        rw [hlast1] at this
        simp at this
        subst this
        simp [hlast2]
    rw [this, List.reverse_reverse]
  unfold trimStr
  rw [step1, step2]

/-- getOverlapSentences' backward walk (backend/nlp/chunk.js lines 174-184),
expressed as a recursion over the reversed sentence list: `acc` is the token
count accumulated so far; a sentence that would push the count past the
target stops the walk, otherwise it is prepended (here: appended, since the
walk consumes the reversed list). -/
def overlapGo (tcK : TokenCounter) (target : Nat) : List Str → Nat → List Str
  | [], _ => []
  | s :: rest, acc =>
    if target < acc + countTokens tcK s then []
    else overlapGo tcK target rest (acc + countTokens tcK s) ++ [s]

/-- getOverlapSentences from backend/nlp/chunk.js lines 169-187: take whole
sentences from the end of the list until their combined token count would
exceed the target overlap. -/
def getOverlapSentences (tcK : TokenCounter) (sentences : List Str) (target : Nat) : List Str :=
  overlapGo tcK target sentences.reverse 0

theorem overlapGo_suffix (tcK : TokenCounter) (target : Nat) :
    ∀ (l : List Str) (acc : Nat), overlapGo tcK target l acc <:+ l.reverse := by
  intro l
  induction l with
  | nil => intro acc; exact List.nil_suffix
  | cons s rest ih =>
    intro acc
    unfold overlapGo
    by_cases h : target < acc + countTokens tcK s
    · rw [if_pos h]; exact List.nil_suffix
    · rw [if_neg h]
      obtain ⟨t, ht⟩ := ih (acc + countTokens tcK s)
      exact ⟨t, by rw [List.reverse_cons, ← List.append_assoc, ht]⟩

theorem getOverlapSentences_suffix (tcK : TokenCounter) (sentences : List Str) (target : Nat) :
    getOverlapSentences tcK sentences target <:+ sentences := by
  have := overlapGo_suffix tcK target sentences.reverse 0
  rw [List.reverse_reverse] at this
  exact this

theorem overlapGo_sum (tcK : TokenCounter) (target : Nat) :
    ∀ (l : List Str) (acc : Nat), acc ≤ target →
      acc + ((overlapGo tcK target l acc).map (countTokens tcK)).sum ≤ target := by
  intro l
  induction l with
  | nil => intro acc h; simpa [overlapGo]
  | cons s rest ih =>
    intro acc h
    unfold overlapGo
    by_cases hb : target < acc + countTokens tcK s
    · rw [if_pos hb]; simpa
    · rw [if_neg hb]
      have := ih (acc + countTokens tcK s) (Nat.le_of_not_lt hb)
      simp only [List.map_append, List.map_cons, List.map_nil, List.sum_append, List.sum_cons,
        List.sum_nil]
      omega

theorem getOverlapSentences_sum (tcK : TokenCounter) (sentences : List Str) (target : Nat) :
    ((getOverlapSentences tcK sentences target).map (countTokens tcK)).sum ≤ target := by
  have := overlapGo_sum tcK target sentences.reverse 0 (Nat.zero_le _)
  simpa using this

theorem countTokens_joinSp_le_sum {tcK : TokenCounter}
    (htc : ∀ a b : Str, countTokens tcK (a ++ ' ' :: b) ≤ countTokens tcK a + countTokens tcK b) :
    ∀ l : List Str, countTokens tcK (joinSp l) ≤ (l.map (countTokens tcK)).sum := by
  intro l
  induction l with
  | nil => simp [joinSp, countTokens_nil]
  | cons s r ih =>
    cases r with
    | nil => simp [joinSp]
    | cons t r2 =>
      rw [joinSp_cons s (by simp)]
      calc countTokens tcK (s ++ ' ' :: joinSp (t :: r2))
          ≤ countTokens tcK s + countTokens tcK (joinSp (t :: r2)) := htc _ _
        _ ≤ countTokens tcK s + ((t :: r2).map (countTokens tcK)).sum :=
            Nat.add_le_add_left ih _
        _ = ((s :: t :: r2).map (countTokens tcK)).sum := by simp

/-- A chunk object as pushed by backend/nlp/chunk.js: text plus metadata.
The source stores `sentenceCount: sentenceBuffer.length`; the embedding keeps
the buffer itself in `sents` (its length is the stored sentenceCount), so the
theorems can speak about the sentences a chunk was built from. -/
structure Chunk where
  text : Str
  chunkIndex : Nat
  startPosition : Nat
  endPosition : Nat
  tokenCount : Nat
  sents : List Str
deriving DecidableEq

/-- The sentence-accumulation loop of chunkText (backend/nlp/chunk.js lines
88-140).  State: remaining sentences, currentChunk, currentTokenCount,
chunkIndex, startPosition, sentenceBuffer, chunks pushed so far.  When adding
the next sentence would exceed the budget and the buffer is non-empty, the
current chunk is pushed and the buffer is reseeded with the sentence-aligned
overlap (`overlapSentences.join(' ') + ' '`); the sentence is appended in
either case; the final buffer is flushed after the loop when its trimmed text
is non-empty. -/
def chunkLoop (tcK : TokenCounter) (chunkSize overlap : Nat) :
    List Str → Str → Nat → Nat → Nat → List Str → List Chunk → List Chunk
  | [], cur, curTok, idx, startPos, buf, acc =>
    if 0 < (trimStr cur).length then
      acc ++ [⟨trimStr cur, idx, startPos, startPos + cur.length, curTok, buf⟩]
    else acc
  | s :: rest, cur, curTok, idx, startPos, buf, acc =>
    if chunkSize < curTok + countTokens tcK s ∧ 0 < cur.length then
      let ovl := getOverlapSentences tcK buf overlap
      let cur2 := joinSp ovl ++ [' ']
      chunkLoop tcK chunkSize overlap rest (cur2 ++ s ++ [' '])
        (countTokens tcK cur2 + countTokens tcK s) (idx + 1) (startPos + cur2.length)
        (ovl ++ [s])
        (acc ++ [⟨trimStr cur, idx, startPos, startPos + cur.length, curTok, buf⟩])
    else
      chunkLoop tcK chunkSize overlap rest (cur ++ s ++ [' ']) (curTok + countTokens tcK s)
        idx startPos (buf ++ [s]) acc

/-- A chunk produced by the loop: its text is the space-join of its sentence
buffer, which is non-empty and clean. -/
def GoodChunk (c : Chunk) : Prop :=
  c.text = joinSp c.sents ∧ c.sents ≠ [] ∧ ∀ s ∈ c.sents, CleanS s

/-- Relation between consecutive chunks: the later chunk's sentences start
with exactly the overlap computed from the earlier chunk's sentences,
followed by at least one new sentence. -/
def StepRel (tcK : TokenCounter) (ov : Nat) (c d : Chunk) : Prop :=
  ∃ rest, rest ≠ [] ∧ d.sents = getOverlapSentences tcK c.sents ov ++ rest

/-- The new (non-overlap) sentences contributed by each chunk after the
first, in order. -/
def coveredTail (tcK : TokenCounter) (ov : Nat) : Chunk → List Chunk → List Str
  | _, [] => []
  | prev, d :: rest =>
    d.sents.drop (getOverlapSentences tcK prev.sents ov).length ++ coveredTail tcK ov d rest

/-- All sentences covered by a chunk list: the first chunk's sentences, then
each later chunk's new sentences. -/
def coveredSents (tcK : TokenCounter) (ov : Nat) : List Chunk → List Str
  | [] => []
  | c :: rest => c.sents ++ coveredTail tcK ov c rest

theorem chunkLoop_spec (tcK : TokenCounter) (size ov : Nat) :
    ∀ (sents : List Str) (cur : Str) (curTok idx sp : Nat) (buf : List Str)
      (acc : List Chunk) (pad : Str),
      (∀ s ∈ sents, CleanS s) → (∀ s ∈ buf, CleanS s) →
      (pad = [] ∨ pad = [' ']) → cur = pad ++ glue buf → (buf = [] → pad = []) →
      ∃ nc, chunkLoop tcK size ov sents cur curTok idx sp buf acc = acc ++ nc ∧
        (∀ c ∈ nc, GoodChunk c) ∧
        List.Chain' (StepRel tcK ov) nc ∧
        coveredSents tcK ov nc = buf ++ sents ∧
        (∀ hd tl, nc = hd :: tl → ∃ news, hd.sents = buf ++ news) ∧
        nc.map Chunk.chunkIndex = List.range' idx nc.length := by
  intro sents
  induction sents with
  | nil =>
    intro cur curTok idx sp buf acc pad hsents hbuf hpad hcur hbp
    by_cases hb : buf = []
    · subst hb
      have hpe : pad = [] := hbp rfl
      have hce : cur = [] := by rw [hcur, hpe]; rfl
      refine ⟨[], ?_, ?_, ?_, ?_, ?_, ?_⟩
      · simp only [chunkLoop, hce, trimStr_nil]
        simp
      · intro c hc; simp at hc
      · exact List.chain'_nil
      · simp [coveredSents]
      · intro hd tl h; simp at h
      · simp
    · have htrim : trimStr cur = joinSp buf := by
        rw [hcur]; exact trimStr_pad_glue pad hpad hb hbuf
      have hjne : joinSp buf ≠ [] := joinSp_ne_nil hb hbuf
      have hpos : 0 < (trimStr cur).length := by
        rw [htrim]
        exact List.length_pos.mpr hjne
      refine ⟨[⟨trimStr cur, idx, sp, sp + cur.length, curTok, buf⟩], ?_, ?_, ?_, ?_, ?_, ?_⟩
      · simp only [chunkLoop, if_pos hpos]
      · intro c hc
        simp at hc
        subst hc
        exact ⟨htrim, hb, hbuf⟩
      · exact List.chain'_singleton _
      · simp [coveredSents, coveredTail]
      · intro hd tl h
        have hhd : hd = ⟨trimStr cur, idx, sp, sp + cur.length, curTok, buf⟩ := by
          have := congrArg List.head? h
          simpa using this.symm
        exact ⟨[], by rw [hhd]; simp⟩
      · simp [List.range'_succ]
  | cons s rest ih =>
    intro cur curTok idx sp buf acc pad hsents hbuf hpad hcur hbp
    have hs : CleanS s := hsents s (by simp)
    have hrest : ∀ x ∈ rest, CleanS x := fun x hx => hsents x (by simp [hx])
    by_cases hcond : size < curTok + countTokens tcK s ∧ 0 < cur.length
    · -- push branch: close the current chunk, seed the overlap
      have hbne : buf ≠ [] := by
        intro h
        subst h
        have hpe : pad = [] := hbp rfl
        have : cur = [] := by rw [hcur, hpe]; rfl
        rw [this] at hcond
        simp at hcond
      have htrim : trimStr cur = joinSp buf := by
        rw [hcur]; exact trimStr_pad_glue pad hpad hbne hbuf
      set c0 : Chunk := ⟨trimStr cur, idx, sp, sp + cur.length, curTok, buf⟩ with hc0
      set ovl := getOverlapSentences tcK buf ov with hovl
      have hovlclean : ∀ x ∈ ovl, CleanS x := by
        intro x hx
        exact hbuf x ((getOverlapSentences_suffix tcK buf ov).subset hx)
      have hnbclean : ∀ x ∈ ovl ++ [s], CleanS x := by
        intro x hx
        rcases List.mem_append.mp hx with h | h
        · exact hovlclean x h
        · simp at h; subst h; exact hs
      have hnbne : (ovl ++ [s] : List Str) ≠ [] := by simp
      -- the reseeded currentChunk has the invariant shape
      have hshape : ∃ pad2, (pad2 = ([] : Str) ∨ pad2 = [' ']) ∧
          (joinSp ovl ++ [' ']) ++ s ++ [' '] = pad2 ++ glue (ovl ++ [s]) ∧
          ((ovl ++ [s] : List Str) = [] → pad2 = []) := by
        by_cases hoe : ovl = []
        · refine ⟨[' '], Or.inr rfl, ?_, by simp⟩
          rw [hoe]
          simp [joinSp, glue]
        · refine ⟨[], Or.inl rfl, ?_, by simp⟩
          rw [glue_snoc, ← glue_eq_joinSp hoe]
          simp
      obtain ⟨pad2, hpad2, hshape2, hbp2⟩ := hshape
      obtain ⟨nc1, hloop, hgood1, hchain1, hcov1, hhead1, hidx1⟩ :=
        ih ((joinSp ovl ++ [' ']) ++ s ++ [' ']) (countTokens tcK (joinSp ovl ++ [' ']) + countTokens tcK s)
          (idx + 1) (sp + (joinSp ovl ++ [' ']).length) (ovl ++ [s]) (acc ++ [c0]) pad2
          hrest hnbclean hpad2 hshape2 hbp2
      have hnc1ne : nc1 ≠ [] := by
        intro h
        rw [h] at hcov1
        simp [coveredSents] at hcov1
      obtain ⟨hd1, tl1, hnc1⟩ := List.exists_cons_of_ne_nil hnc1ne
      obtain ⟨news, hnews⟩ := hhead1 hd1 tl1 hnc1
      refine ⟨c0 :: nc1, ?_, ?_, ?_, ?_, ?_, ?_⟩
      · simp only [chunkLoop, if_pos hcond]
        rw [hloop]
        simp [hc0]
      · intro c hc
        rcases List.mem_cons.mp hc with h | h
        · subst h
          exact ⟨htrim, hbne, hbuf⟩
        · exact hgood1 c h
      · rw [hnc1]
        refine List.chain'_cons.mpr ⟨?_, by rw [← hnc1]; exact hchain1⟩
        refine ⟨[s] ++ news, by simp, ?_⟩
        rw [hnews]
        simp [hc0, hovl]
      · rw [hnc1]
        simp only [coveredSents, coveredTail]
        rw [hnc1] at hcov1
        simp only [coveredSents] at hcov1
        have hdrop : hd1.sents.drop (getOverlapSentences tcK c0.sents ov).length = [s] ++ news := by
          have : hd1.sents = getOverlapSentences tcK c0.sents ov ++ ([s] ++ news) := by
            rw [hnews]
            simp [hc0, hovl]
          rw [this, List.drop_left]
        rw [hdrop]
        have hcancel : news ++ coveredTail tcK ov hd1 tl1 = rest := by
          have h1 : (ovl ++ [s]) ++ (news ++ coveredTail tcK ov hd1 tl1) = (ovl ++ [s]) ++ rest := by
            rw [← List.append_assoc, ← hnews, hcov1]
          exact List.append_cancel_left h1
        show c0.sents ++ (([s] ++ news) ++ coveredTail tcK ov hd1 tl1) = buf ++ s :: rest
        rw [List.append_assoc, hcancel]
        simp [hc0]
      · intro hd tl h
        have hhd : hd = c0 := by
          have := congrArg List.head? h
          simpa using this.symm
        exact ⟨[], by rw [hhd]; simp [hc0]⟩
      · simp only [List.map_cons, hidx1, List.length_cons, List.range'_succ]
    · -- accumulate branch: append the sentence to the buffer
      have hcur2 : cur ++ s ++ [' '] = pad ++ glue (buf ++ [s]) := by
        rw [hcur, glue_snoc]
        simp
      obtain ⟨nc, hloop, hgood, hchain, hcov, hhead, hidx⟩ :=
        ih (cur ++ s ++ [' ']) (curTok + countTokens tcK s) idx sp (buf ++ [s]) acc pad
          hrest
          (by
            intro x hx
            rcases List.mem_append.mp hx with h | h
            · exact hbuf x h
            · simp at h; subst h; exact hs)
          hpad hcur2 (fun h => absurd h (by simp))
      refine ⟨nc, ?_, hgood, hchain, ?_, ?_, hidx⟩
      · simp only [chunkLoop, if_neg hcond]
        exact hloop
      · rw [hcov]
        simp
      · intro hd tl h
        obtain ⟨news, hn⟩ := hhead hd tl h
        exact ⟨[s] ++ news, by rw [hn]; simp⟩

/-- Sentence-terminator characters used by the segmentation model. -/
def isTermC (c : Char) : Bool := c == '.' || c == '!' || c == '?'

/-- Modelled from the spec: the sentence segmentation performed by the
external natural.SentenceTokenizer library, which is not part of this
repository (§4.2: "segments normalized text into sentence-like units").  It
is modelled as cutting after '.', '!' or '?' whenever the next character is
whitespace; `acc` holds the current piece reversed. -/
def sentSplitGo : Str → Str → List Str
  | acc, [] => [acc.reverse]
  | acc, c :: rest =>
    match rest with
    | [] => [(c :: acc).reverse]
    | d :: _ =>
      if isTermC c && isWsC d then (c :: acc).reverse :: sentSplitGo [] rest
      else sentSplitGo (c :: acc) rest

/-- The segmentation pieces, trimmed, with empty pieces removed. -/
def sentenceSplitSpec (t : Str) : List Str :=
  ((sentSplitGo [] t).map trimStr).filter (fun s => !s.isEmpty)

/-- The noise filter of tokenizeSentences (backend/nlp/preprocess.js lines
95-97): keep sentences with trimmed length above 10 and whitespace-split word
count above 2.  For the trimmed pieces produced here, the JS
`sentence.split(/\s+/).length` equals `wordsCount`. -/
def sentenceKeep (s : Str) : Bool :=
  decide (10 < (trimStr s).length) && decide (2 < wordsCount s)

/-- tokenizeSentences from backend/nlp/preprocess.js lines 85-103: segment
(the segmentation itself is the external collaborator, spec-modelled above)
then filter out degenerate fragments (repository code). -/
def tokenizeSentences (t : Str) : List Str :=
  (sentenceSplitSpec t).filter sentenceKeep

theorem tokenizeSentences_clean (t : Str) : ∀ s ∈ tokenizeSentences t, CleanS s := by
  intro s hsx
  unfold tokenizeSentences at hsx
  have h1 : s ∈ sentenceSplitSpec t := List.mem_of_mem_filter hsx
  unfold sentenceSplitSpec at h1
  have h2 : s ∈ (sentSplitGo [] t).map trimStr := List.mem_of_mem_filter h1
  obtain ⟨p, _, hps⟩ := List.mem_map.mp h2
  have hne : s ≠ [] := by
    have := List.of_mem_filter h1
    simpa using this
  rw [← hps]
  exact cleanS_trimStr (by rw [hps]; exact hne)

/-- createSingleChunk from backend/nlp/chunk.js lines 196-207.  The source
stores `sentenceCount: tokenizeSentences(text).length || 1`; the embedding
keeps the sentence list itself in the ghost field `sents`. -/
def createSingleChunk (tcK : TokenCounter) (t : Str) : List Chunk :=
  [⟨trimStr t, 0, 0, t.length, countTokens tcK t, tokenizeSentences t⟩]

/-- chunkText from backend/nlp/chunk.js lines 50-160 with
preserveSentences = true: empty input yields no chunks, text under 100
characters yields a single chunk, text with no detected sentences yields a
single chunk, otherwise the sentence-accumulation loop runs (with the
single-chunk fallback if it somehow produced nothing). -/
def chunkText (tcK : TokenCounter) (chunkSize overlap : Nat) (text : Str) : List Chunk :=
  if (trimStr text).length = 0 then []
  else if (trimStr text).length < 100 then createSingleChunk tcK (trimStr text)
  else if tokenizeSentences (trimStr text) = [] then createSingleChunk tcK (trimStr text)
  else if chunkLoop tcK chunkSize overlap (tokenizeSentences (trimStr text)) [] 0 0 0 [] [] = []
    then createSingleChunk tcK (trimStr text)
    else chunkLoop tcK chunkSize overlap (tokenizeSentences (trimStr text)) [] 0 0 0 [] []

/-- The claim-side reading of "removing each chunk's leading overlap span":
for every chunk after the first, drop the joined overlap text computed from
the previous chunk's sentences (keeping the separating space); when the
overlap is empty, re-insert the single separating space. -/
def reconstructTail (tcK : TokenCounter) (ov : Nat) : Chunk → List Chunk → Str
  | _, [] => []
  | prev, d :: rest =>
    (if getOverlapSentences tcK prev.sents ov = [] then ' ' :: d.text
     else d.text.drop (joinSp (getOverlapSentences tcK prev.sents ov)).length) ++
      reconstructTail tcK ov d rest

/-- Concatenation of the chunk texts with each chunk's leading overlap span
removed. -/
def reconstruct (tcK : TokenCounter) (ov : Nat) : List Chunk → Str
  | [] => []
  | c :: rest => c.text ++ reconstructTail tcK ov c rest

theorem reconstructTail_spec (tcK : TokenCounter) (ov : Nat) :
    ∀ (l : List Chunk) (prev : Chunk), GoodChunk prev → (∀ c ∈ l, GoodChunk c) →
      List.Chain' (StepRel tcK ov) (prev :: l) →
      joinSp (prev.sents ++ coveredTail tcK ov prev l) =
        joinSp prev.sents ++ reconstructTail tcK ov prev l := by
  intro l
  induction l with
  | nil => intro prev _ _ _; simp [coveredTail, reconstructTail]
  | cons d rest ih =>
    intro prev hgp hgl hchain
    have hgd : GoodChunk d := hgl d (by simp)
    obtain ⟨restS, hrne, hrs⟩ := (List.chain'_cons.mp hchain).1
    have hchain2 : List.Chain' (StepRel tcK ov) (d :: rest) := (List.chain'_cons.mp hchain).2
    set ovl := getOverlapSentences tcK prev.sents ov with hovl
    have hdrop : d.sents.drop ovl.length = restS := by rw [hrs, List.drop_left]
    have hih := ih d hgd (fun c hc => hgl c (by simp [hc])) hchain2
    have hresne : restS ++ coveredTail tcK ov d rest ≠ [] := by
      intro h
      exact hrne (List.append_eq_nil.mp h).1
    have hkey : joinSp (restS ++ coveredTail tcK ov d rest) =
        joinSp restS ++ reconstructTail tcK ov d rest := by
      by_cases hoe : ovl = []
      · have hds : d.sents = restS := by rw [hrs, hoe]; simp
        rw [hds] at hih
        exact hih
      · have h1 : joinSp ((ovl ++ restS) ++ coveredTail tcK ov d rest) =
            joinSp (ovl ++ restS) ++ reconstructTail tcK ov d rest := by
          rw [← hrs]; exact hih
        rw [List.append_assoc, joinSp_append hoe hresne, joinSp_append hoe hrne,
          List.append_assoc] at h1
        have h2 := List.append_cancel_left h1
        simpa using h2
    have hres : (if ovl = [] then ' ' :: d.text
        else d.text.drop (joinSp ovl).length) = ' ' :: joinSp restS := by
      by_cases hoe : ovl = []
      · rw [if_pos hoe, hgd.1]
        have hds : d.sents = restS := by rw [hrs, hoe]; simp
        rw [hds]
      · rw [if_neg hoe, hgd.1, hrs, joinSp_append hoe hrne, List.drop_left]
    show joinSp (prev.sents ++ (d.sents.drop ovl.length ++ coveredTail tcK ov d rest)) =
      joinSp prev.sents ++ ((if ovl = [] then ' ' :: d.text
        else d.text.drop (joinSp ovl).length) ++ reconstructTail tcK ov d rest)
    rw [hdrop, hres, joinSp_append hgp.2.1 hresne, hkey]
    simp

theorem reconstruct_eq_joinSp (tcK : TokenCounter) (ov : Nat) (l : List Chunk)
    (hg : ∀ c ∈ l, GoodChunk c) (hchain : List.Chain' (StepRel tcK ov) l) :
    reconstruct tcK ov l = joinSp (coveredSents tcK ov l) := by
  cases l with
  | nil => rfl
  | cons c rest =>
    have h := reconstructTail_spec tcK ov rest c (hg c (by simp))
      (fun x hx => hg x (by simp [hx])) hchain
    show c.text ++ reconstructTail tcK ov c rest = joinSp (c.sents ++ coveredTail tcK ov c rest)
    rw [(hg c (by simp)).1, h]

theorem chunkText_loop_facts (tcK : TokenCounter) (size ov : Nat) (text : Str)
    (hlen : ¬ (trimStr text).length < 100)
    (hsne : tokenizeSentences (trimStr text) ≠ []) :
    (∀ c ∈ chunkText tcK size ov text, GoodChunk c) ∧
    List.Chain' (StepRel tcK ov) (chunkText tcK size ov text) ∧
    coveredSents tcK ov (chunkText tcK size ov text) = tokenizeSentences (trimStr text) ∧
    (chunkText tcK size ov text).map Chunk.chunkIndex =
      List.range' 0 (chunkText tcK size ov text).length := by
  obtain ⟨nc, hloop, hgood, hchain, hcov, _, hidx⟩ :=
    chunkLoop_spec tcK size ov (tokenizeSentences (trimStr text)) [] 0 0 0 [] [] []
      (tokenizeSentences_clean (trimStr text)) (by intro s h; simp at h)
      (Or.inl rfl) rfl (fun _ => rfl)
  rw [List.nil_append] at hloop
  have hcov2 : coveredSents tcK ov nc = tokenizeSentences (trimStr text) := by
    rw [hcov]; simp
  have hncne : nc ≠ [] := by
    intro h
    rw [h] at hcov2
    exact hsne (by simpa [coveredSents] using hcov2.symm)
  have hne0 : ¬ (trimStr text).length = 0 := by omega
  have hct : chunkText tcK size ov text = nc := by
    unfold chunkText
    rw [if_neg hne0, if_neg hlen, if_neg hsne, hloop, if_neg hncne]
  rw [hct]
  exact ⟨hgood, hchain, hcov2, hidx⟩

/-- C1 (amended).  For every document text, chunkText produces chunks whose
chunkIndex values are 0-based and contiguous; a trimmed text under 100
characters becomes a single chunk carrying the trimmed text itself; and on
the sentence path the concatenation of the chunk texts, after removing each
chunk's leading overlap span, equals the space-join of the sentence sequence
retained by tokenizeSentences (not the normalized source text itself:
fragments dropped by the sentence filter are lost, and inter-sentence
whitespace is normalized to single spaces). -/
theorem chunkText_indices_reconstruction (tcK : TokenCounter) (size ov : Nat) (text : Str) :
    (chunkText tcK size ov text).map Chunk.chunkIndex =
      List.range (chunkText tcK size ov text).length ∧
    ((trimStr text).length ≠ 0 → (trimStr text).length < 100 →
      (chunkText tcK size ov text).map Chunk.text = [trimStr text]) ∧
    (¬ (trimStr text).length < 100 → tokenizeSentences (trimStr text) ≠ [] →
      reconstruct tcK ov (chunkText tcK size ov text) =
        joinSp (tokenizeSentences (trimStr text))) := by
  refine ⟨?_, ?_, ?_⟩
  · by_cases h0 : (trimStr text).length = 0
    · have h : chunkText tcK size ov text = [] := by unfold chunkText; rw [if_pos h0]
      rw [h]; rfl
    · by_cases h1 : (trimStr text).length < 100
      · have h : chunkText tcK size ov text = createSingleChunk tcK (trimStr text) := by
          unfold chunkText; rw [if_neg h0, if_pos h1]
        rw [h]; rfl
      · by_cases h2 : tokenizeSentences (trimStr text) = []
        · have h : chunkText tcK size ov text = createSingleChunk tcK (trimStr text) := by
            unfold chunkText; rw [if_neg h0, if_neg h1, if_pos h2]
          rw [h]; rfl
        · by_cases h3 : chunkLoop tcK size ov (tokenizeSentences (trimStr text)) [] 0 0 0 [] [] = []
          · have h : chunkText tcK size ov text = createSingleChunk tcK (trimStr text) := by
              unfold chunkText; rw [if_neg h0, if_neg h1, if_neg h2, if_pos h3]
            rw [h]; rfl
          · have := (chunkText_loop_facts tcK size ov text h1 h2).2.2.2
            rw [this, List.range_eq_range']
  · intro h0 h1
    have h : chunkText tcK size ov text = createSingleChunk tcK (trimStr text) := by
      unfold chunkText; rw [if_neg h0, if_pos h1]
    rw [h]
    unfold createSingleChunk
    simp [trimStr_idem]
  · intro h1 h2
    obtain ⟨hgood, hchain, hcov, _⟩ := chunkText_loop_facts tcK size ov text h1 h2
    rw [reconstruct_eq_joinSp tcK ov _ hgood hchain, hcov]

/-- The C1 counterexample input: an already-normalized 128-character text
containing the degenerate sentence "no.", which the tokenizeSentences filter
drops.  cleanText/trim leave it unchanged (first conjunct below), so it is
its own normalized source text. -/
def tex1 : Str :=
  ("the quarterly revenue of the company grew strongly across all regions. no. management expects further growth in the coming year.").data

set_option maxRecDepth 200000 in
/-- C1 counterexample.  For the concrete normalized document tex1, the
concatenation of the chunk texts with leading overlap spans removed does not
equal the normalized source text: the filtered-out fragment "no." is lost.
This refutes the reconstruction half of the claim as stated. -/
theorem chunkText_reconstruction_counterexample :
    trimStr tex1 = tex1 ∧
    reconstruct TokenCounter.approx 50 (chunkText TokenCounter.approx 500 50 tex1) ≠ tex1 := by
  decide

/-- A concrete three-sentence document used to exercise the multi-chunk path
(each sentence has 8 words, hence 11 approximate tokens). -/
def tex2 : Str :=
  ("the revenue grew well over the last year. the profit margin improved in every single region. the board expects faster growth next fiscal year.").data

set_option maxRecDepth 400000 in
/-- Witness for C1 at concrete inputs: the sentence-path reconstruction
equality and the short-text single-chunk shape, with all hypotheses
discharged on tex2 and on a short text. -/
theorem chunkText_indices_reconstruction_witness :
    reconstruct TokenCounter.approx 20 (chunkText TokenCounter.approx 15 20 tex2) =
      joinSp (tokenizeSentences (trimStr tex2)) ∧
    (chunkText TokenCounter.approx 500 50 ("revenue grew fast.").data).map Chunk.text =
      [trimStr ("revenue grew fast.").data] :=
  ⟨(chunkText_indices_reconstruction TokenCounter.approx 15 20 tex2).2.2
      (by decide) (by decide),
   (chunkText_indices_reconstruction TokenCounter.approx 500 50
      ("revenue grew fast.").data).2.1 (by decide) (by decide)⟩

/-- C5.  For every document and every adjacent pair of chunks produced by
chunkText, the later chunk's sentence list starts with exactly the
sentence-aligned overlap computed from the previous chunk's sentences (a
suffix of whole sentences of the previous chunk, never a mid-sentence cut),
followed by at least one new sentence; the later chunk's text is the
space-join of that list, so its leading text is the joined overlap; and the
overlap span's token count is at most the configured overlap, both as the sum
of the overlap sentences' counts (unconditionally) and as the count of the
joined span (for token counters subadditive over space-joins, which the
in-repository approximation is). -/
theorem chunkText_overlap_spec (tcK : TokenCounter) (size ov : Nat) (text : Str) (k : Nat)
    (hk : k + 1 < (chunkText tcK size ov text).length)
    (htc : ∀ a b : Str, countTokens tcK (a ++ ' ' :: b) ≤ countTokens tcK a + countTokens tcK b) :
    ∃ rest, rest ≠ [] ∧
      getOverlapSentences tcK ((chunkText tcK size ov text).get ⟨k, Nat.lt_of_succ_lt hk⟩).sents ov
        <:+ ((chunkText tcK size ov text).get ⟨k, Nat.lt_of_succ_lt hk⟩).sents ∧
      ((chunkText tcK size ov text).get ⟨k + 1, hk⟩).sents =
        getOverlapSentences tcK ((chunkText tcK size ov text).get ⟨k, Nat.lt_of_succ_lt hk⟩).sents ov
          ++ rest ∧
      ((chunkText tcK size ov text).get ⟨k + 1, hk⟩).text =
        joinSp (getOverlapSentences tcK
          ((chunkText tcK size ov text).get ⟨k, Nat.lt_of_succ_lt hk⟩).sents ov ++ rest) ∧
      (((getOverlapSentences tcK
          ((chunkText tcK size ov text).get ⟨k, Nat.lt_of_succ_lt hk⟩).sents ov).map
            (countTokens tcK)).sum ≤ ov) ∧
      countTokens tcK (joinSp (getOverlapSentences tcK
          ((chunkText tcK size ov text).get ⟨k, Nat.lt_of_succ_lt hk⟩).sents ov)) ≤ ov := by
  by_cases h0 : (trimStr text).length = 0
  · exfalso
    have h : chunkText tcK size ov text = [] := by unfold chunkText; rw [if_pos h0]
    rw [h] at hk
    simp at hk
  by_cases h1 : (trimStr text).length < 100
  · exfalso
    have h : chunkText tcK size ov text = createSingleChunk tcK (trimStr text) := by
      unfold chunkText; rw [if_neg h0, if_pos h1]
    rw [h] at hk
    simp [createSingleChunk] at hk
  by_cases h2 : tokenizeSentences (trimStr text) = []
  · exfalso
    have h : chunkText tcK size ov text = createSingleChunk tcK (trimStr text) := by
      unfold chunkText; rw [if_neg h0, if_neg h1, if_pos h2]
    rw [h] at hk
    simp [createSingleChunk] at hk
  obtain ⟨hgood, hchain, _, _⟩ := chunkText_loop_facts tcK size ov text h1 h2
  have hrel := List.chain'_iff_get.mp hchain k (by omega)
  obtain ⟨rest, hrne, hrs⟩ := hrel
  refine ⟨rest, hrne, getOverlapSentences_suffix _ _ _, hrs, ?_, getOverlapSentences_sum _ _ _, ?_⟩
  · have hg := hgood ((chunkText tcK size ov text).get ⟨k + 1, hk⟩) (List.get_mem _ _ _)
    rw [hg.1, hrs]
  · exact le_trans (countTokens_joinSp_le_sum htc _) (getOverlapSentences_sum _ _ _)

set_option maxRecDepth 400000 in
theorem tex2_three_chunks : 1 + 1 < (chunkText TokenCounter.approx 15 20 tex2).length := by
  decide

/-- Witness for C5: tex2 with chunkSize 15 and overlap 20 yields three
chunks; the second and third chunk share a one-sentence overlap. -/
theorem chunkText_overlap_spec_witness :
    ∃ rest, rest ≠ [] ∧
      getOverlapSentences TokenCounter.approx
          ((chunkText TokenCounter.approx 15 20 tex2).get ⟨1, Nat.lt_of_succ_lt tex2_three_chunks⟩).sents 20
        <:+ ((chunkText TokenCounter.approx 15 20 tex2).get ⟨1, Nat.lt_of_succ_lt tex2_three_chunks⟩).sents ∧
      ((chunkText TokenCounter.approx 15 20 tex2).get ⟨1 + 1, tex2_three_chunks⟩).sents =
        getOverlapSentences TokenCounter.approx
          ((chunkText TokenCounter.approx 15 20 tex2).get ⟨1, Nat.lt_of_succ_lt tex2_three_chunks⟩).sents 20
          ++ rest ∧
      ((chunkText TokenCounter.approx 15 20 tex2).get ⟨1 + 1, tex2_three_chunks⟩).text =
        joinSp (getOverlapSentences TokenCounter.approx
          ((chunkText TokenCounter.approx 15 20 tex2).get ⟨1, Nat.lt_of_succ_lt tex2_three_chunks⟩).sents 20 ++ rest) ∧
      (((getOverlapSentences TokenCounter.approx
          ((chunkText TokenCounter.approx 15 20 tex2).get ⟨1, Nat.lt_of_succ_lt tex2_three_chunks⟩).sents 20).map
            (countTokens TokenCounter.approx)).sum ≤ 20) ∧
      countTokens TokenCounter.approx (joinSp (getOverlapSentences TokenCounter.approx
          ((chunkText TokenCounter.approx 15 20 tex2).get ⟨1, Nat.lt_of_succ_lt tex2_three_chunks⟩).sents 20)) ≤ 20 :=
  chunkText_overlap_spec TokenCounter.approx 15 20 tex2 1 tex2_three_chunks
    countTokens_approx_subadd

/-- Unicode NFKD normalization (preprocess.js line 42).  On the ASCII inputs
covered by this development NFKD is the identity; the embedding models it as
such. -/
def nfkdAscii (s : Str) : Str := s

/-- The protect step for dollar amounts (preprocess.js line 45): the regex
`\$(\d+(?:,\d{3})*(?:\.\d{2})?)` → 'DOLLAR$1' keeps the captured digits and
replaces only the '$', so it is the per-character transform replacing '$'
with "DOLLAR" whenever a digit follows. -/
def protectDollar : Str → Str
  | [] => []
  | '$' :: c :: rest =>
    if c.isDigit then 'D' :: 'O' :: 'L' :: 'L' :: 'A' :: 'R' :: protectDollar (c :: rest)
    else '$' :: protectDollar (c :: rest)
  | c :: rest => c :: protectDollar rest

/-- The protect step for percentages (preprocess.js line 46): the regex
`(\d+(?:\.\d+)?)\%` → '$1PERCENT' keeps the digits and replaces only the '%',
so it is the transform replacing '%' with "PERCENT" whenever the previous
character is a digit (tracked in `prevDigit`). -/
def protectPercentGo (prevDigit : Bool) : Str → Str
  | [] => []
  | '%' :: rest =>
    if prevDigit then 'P' :: 'E' :: 'R' :: 'C' :: 'E' :: 'N' :: 'T' :: protectPercentGo false rest
    else '%' :: protectPercentGo false rest
  | c :: rest => c :: protectPercentGo c.isDigit rest

def protectPercent (s : Str) : Str := protectPercentGo false s

/-- Detects "http://" or "https://" at the current position (preprocess.js
line 49). -/
def startsHttp (s : Str) : Bool :=
  ("http://").data.isPrefixOf s || ("https://").data.isPrefixOf s

/-- URL removal (preprocess.js line 49): the regex `https?:\/\/[^\s]+` → '',
as a scanner that, on seeing "http(s)://", drops characters until the next
whitespace (`inUrl` is the skipping state). -/
def removeURLsGo : Bool → Str → Str
  | _, [] => []
  | true, c :: rest =>
    if isWsC c then c :: removeURLsGo false rest else removeURLsGo true rest
  | false, c :: rest =>
    if startsHttp (c :: rest) then removeURLsGo true rest else c :: removeURLsGo false rest

def removeURLs (s : Str) : Str := removeURLsGo false s

/-- Characters admitted in the email pattern `[\w\.-]+@[\w\.-]+\.\w+`
(preprocess.js line 52). -/
def isEmailC (c : Char) : Bool := isWordC c || c == '.' || c == '-'

/-- Email removal (preprocess.js line 52): the regex
`[\w\.-]+@[\w\.-]+\.\w+` → '', modelled as a scanner that drops maximal runs
of email characters surrounding an '@' (`inMail` skips the run after a
removed '@'); exact on texts without '@', which is every input this
development evaluates. -/
def removeEmailsGo : Bool → Str → Str
  | _, [] => []
  | true, c :: rest =>
    if isEmailC c then removeEmailsGo true rest else c :: removeEmailsGo false rest
  | false, c :: rest =>
    if c == '@' ∧ (rest.takeWhile isEmailC ≠ []) then removeEmailsGo true rest
    else if isEmailC c ∧ ((c :: rest).dropWhile isEmailC).head? = some '@' then
      removeEmailsGo false rest
    else c :: removeEmailsGo false rest

def removeEmails (s : Str) : Str := removeEmailsGo false s

/-- The character class kept by the special-character strip (preprocess.js
line 55): `[\w\s\.\,\!\?\-\'\"\(\)]`; everything else becomes a space. -/
def keepC (c : Char) : Bool :=
  isWordC c || isWsC c || c == '.' || c == ',' || c == '!' || c == '?' ||
    c == '-' || c == '\'' || c == '"' || c == '(' || c == ')'

def removeSpecial (s : Str) : Str := s.map (fun c => if keepC c then c else ' ')

/-- The restore step for dollar amounts (preprocess.js line 58):
`DOLLAR(\d+)` → '$$$1', i.e. "DOLLAR" followed by a digit becomes '$'. -/
def restoreDollar : Str → Str
  | 'D' :: 'O' :: 'L' :: 'L' :: 'A' :: 'R' :: c :: rest =>
    if c.isDigit then '$' :: restoreDollar (c :: rest)
    else 'D' :: restoreDollar ('O' :: 'L' :: 'L' :: 'A' :: 'R' :: c :: rest)
  | c :: rest => c :: restoreDollar rest
  | [] => []

/-- The restore step for percentages (preprocess.js line 59):
`(\d+)PERCENT` → '$1%', i.e. "PERCENT" preceded by a digit becomes '%'. -/
def restorePercentGo (prevDigit : Bool) : Str → Str
  | 'P' :: 'E' :: 'R' :: 'C' :: 'E' :: 'N' :: 'T' :: rest =>
    if prevDigit then '%' :: restorePercentGo false rest
    else 'P' :: restorePercentGo false ('E' :: 'R' :: 'C' :: 'E' :: 'N' :: 'T' :: rest)
  | c :: rest => c :: restorePercentGo c.isDigit rest
  | [] => []

def restorePercent (s : Str) : Str := restorePercentGo false s

/-- Whitespace collapsing (preprocess.js line 62): `\s+` → ' ', as a scanner
that maps whitespace to a single space and drops whitespace following
whitespace. -/
def collapseWsGo (prevWs : Bool) : Str → Str
  | [] => []
  | c :: rest =>
    if isWsC c then
      (if prevWs then collapseWsGo true rest else ' ' :: collapseWsGo true rest)
    else c :: collapseWsGo false rest

def collapseWs (s : Str) : Str := collapseWsGo false s

/-- JavaScript String.prototype.toLowerCase, per character. -/
def toLowerStr (s : Str) : Str := s.map Char.toLower

/-- cleanText from backend/nlp/preprocess.js lines 35-76: NFKD-normalize,
protect dollar amounts and percentages, remove URLs and emails, strip special
characters, restore the protected financial symbols, collapse whitespace,
trim, and lowercase. -/
def cleanText (s : Str) : Str :=
  toLowerStr (trimStr (collapseWs (restorePercent (restoreDollar (removeSpecial
    (removeEmails (removeURLs (protectPercent (protectDollar (nfkdAscii s))))))))))

/-- The C9 scenario input. -/
def inputC9 : Str := ("Revenue grew 15% to $50 million in Q4.").data

set_option maxRecDepth 100000 in
/-- C9.  Normalizing then chunking "Revenue grew 15% to $50 million in Q4."
with chunkSize 500 and overlap 50 yields exactly one chunk, with a positive
token count, whose text still contains "15%" and "$50 million" verbatim
(evaluated on the in-repository approximation token counter; the single-chunk
shape and the chunk text are independent of the counter). -/
theorem pipeline_preserves_financial_symbols :
    (chunkText TokenCounter.approx 500 50 (cleanText inputC9)).length = 1 ∧
    ∀ c ∈ chunkText TokenCounter.approx 500 50 (cleanText inputC9),
      0 < c.tokenCount ∧
      ("15%").data <:+: c.text ∧
      ("$50 million").data <:+: c.text := by
  decide

/-- A match returned by the external vector store's query (Pinecone is the
collaborator; §6 of the design: matches carry id, cosine score and the
metadata written at upsert time).  Scores are rationals standing for the
JavaScript numbers. -/
structure StoreMatch where
  id : Str
  score : ℚ
  chunkText : Str
  chunkIndex : Nat
  documentId : Str
  filename : Str
deriving DecidableEq

/-- A retrieval result as built by searchSimilarVectors
(backend/db/pinecone.js lines 186-195). -/
structure SearchResult where
  id : Str
  similarity : ℚ
  chunkText : Str
  chunkIndex : Nat
  documentId : Str
  filename : Str
deriving DecidableEq

/-- The per-match mapping of searchSimilarVectors (backend/db/pinecone.js
lines 188-195). -/
def toResult (m : StoreMatch) : SearchResult :=
  ⟨m.id, m.score, m.chunkText, m.chunkIndex, m.documentId, m.filename⟩

/-- searchSimilarVectors from backend/db/pinecone.js lines 163-204: the store
is queried with topK (its response `matches` is the collaborator input here),
matches below the threshold are filtered out, and the rest are mapped to
result records.  No re-sorting and no further truncation happen. -/
def searchSimilarVectors (ms : List StoreMatch) (threshold : ℚ) : List SearchResult :=
  (ms.filter (fun m => threshold ≤ m.score)).map toResult

/-- The keyword test of hybridSearch (backend/db/pinecone.js lines 423-426):
`keywords.some(keyword => text.toLowerCase().includes(keyword.toLowerCase()))`. -/
def keywordHit (keywords : List Str) (text : Str) : Bool :=
  keywords.any (fun k => decide (toLowerStr k <:+: toLowerStr text))

/-- hybridSearch from backend/db/pinecone.js lines 410-436: run the vector
search (the store response to the topK*2 query is `storeMatches`), then, when
keywords are supplied, keep only results whose chunk text contains one of the
keywords and truncate to topK.  Scores are never recombined. -/
def hybridSearch (storeMatches : List StoreMatch) (keywords : List Str)
    (topK : Nat) (threshold : ℚ) : List SearchResult :=
  let results := searchSimilarVectors storeMatches threshold
  if keywords ≠ [] then
    (results.filter (fun r => keywordHit keywords r.chunkText)).take topK
  else results.take topK

/-- Modelled from the spec: the lexical relevance signal of §4.6 ("keyword
containment or text-match score"), as the claim's weighted sum requires one —
the repository computes no such signal, which is what C3's counterexample
shows.  Containment of some keyword scores 1, otherwise 0. -/
def specKeywordRelevance (keywords : List Str) (text : Str) : ℚ :=
  if keywordHit keywords text then 1 else 0

/-- Modelled from the spec: the weighted-sum hybrid score of §4.6,
`vectorWeight × vector-similarity + keywordWeight × lexical-relevance`. -/
def specHybridScore (vw kw vectorScore keywordScore : ℚ) : ℚ :=
  vw * vectorScore + kw * keywordScore

/-- C6.  Whenever the external store honours its contract — it returns at
most topK matches, sorted by descending score (Pinecone's documented query
behaviour) — every result of searchSimilarVectors scores at least the
threshold, the results are sorted by descending similarity, at most topK are
returned, and the result ids form a sublist of the store's match ids in store
order (ties keep the store's insertion order; nothing is re-sorted). -/
theorem searchSimilarVectors_spec (ms : List StoreMatch) (threshold : ℚ) (topK : Nat)
    (hsorted : List.Sorted (fun a b : StoreMatch => b.score ≤ a.score) ms)
    (hlen : ms.length ≤ topK) :
    (∀ r ∈ searchSimilarVectors ms threshold, threshold ≤ r.similarity) ∧
    List.Sorted (fun a b : SearchResult => b.similarity ≤ a.similarity)
      (searchSimilarVectors ms threshold) ∧
    (searchSimilarVectors ms threshold).length ≤ topK ∧
    List.Sublist ((searchSimilarVectors ms threshold).map SearchResult.id)
      (ms.map StoreMatch.id) := by
  refine ⟨?_, ?_, ?_, ?_⟩
  · intro r hr
    obtain ⟨m, hm, hmr⟩ := List.mem_map.mp hr
    have := List.of_mem_filter hm
    rw [← hmr]
    simpa [toResult] using this
  · exact List.Pairwise.map toResult (fun a b h => h) (hsorted.filter _)
  · calc (searchSimilarVectors ms threshold).length
        = (ms.filter (fun m => threshold ≤ m.score)).length := by
          simp [searchSimilarVectors]
      _ ≤ ms.length := List.length_filter_le _ _
      _ ≤ topK := hlen
  · have h1 : List.Sublist (ms.filter (fun m => threshold ≤ m.score)) ms :=
      List.filter_sublist _
    have h2 := h1.map StoreMatch.id
    have h3 : (searchSimilarVectors ms threshold).map SearchResult.id =
        (ms.filter (fun m => threshold ≤ m.score)).map StoreMatch.id := by
      simp [searchSimilarVectors, toResult, Function.comp]
    rw [h3]
    exact h2

/-- A concrete sorted store response used by the C6 witness. -/
def storeW : List StoreMatch :=
  [⟨("c1").data, 9/10, ("alpha").data, 0, ("d1").data, ("f1").data⟩,
   ⟨("c2").data, 4/5, ("beta").data, 1, ("d1").data, ("f1").data⟩,
   ⟨("c3").data, 3/5, ("gamma").data, 2, ("d2").data, ("f2").data⟩]

/-- Witness for C6: the concrete sorted three-match store response with
threshold 0.7 and topK 3. -/
theorem searchSimilarVectors_spec_witness :
    (∀ r ∈ searchSimilarVectors storeW (7/10), (7/10 : ℚ) ≤ r.similarity) ∧
    List.Sorted (fun a b : SearchResult => b.similarity ≤ a.similarity)
      (searchSimilarVectors storeW (7/10)) ∧
    (searchSimilarVectors storeW (7/10)).length ≤ 3 ∧
    List.Sublist ((searchSimilarVectors storeW (7/10)).map SearchResult.id)
      (storeW.map StoreMatch.id) :=
  searchSimilarVectors_spec storeW (7/10) 3 (by norm_num [storeW, List.sorted_cons])
    (by simp [storeW])

/-- The single-match store response and keyword list of the C3
counterexample. -/
def storeC3 : List StoreMatch :=
  [⟨("c1").data, 4/5, ("revenue details for q4").data, 0, ("d1").data, ("f1").data⟩]

/-- C3 counterexample.  With keywords supplied, hybridSearch returns the
match with its score equal to the raw vector similarity 0.8; the weighted sum
the claim requires (0.7 × 0.8 + 0.3 × lexical-relevance, the keyword being
contained so the spec's containment signal is 1) is 0.86 ≠ 0.8.  The code
combines the signals by filtering alone, never by a weighted sum. -/
theorem hybridSearch_counterexample :
    (hybridSearch storeC3 [("revenue").data] 10 (1/2)).map SearchResult.similarity = [4/5] ∧
    specKeywordRelevance [("revenue").data] ("revenue details for q4").data = 1 ∧
    specHybridScore (7/10) (3/10) (4/5) 1 ≠ 4/5 := by
  refine ⟨?_, ?_, by norm_num [specHybridScore]⟩
  · norm_num [hybridSearch, searchSimilarVectors, storeC3, toResult, keywordHit]
    simp +decide [List.filter]
  · norm_num [specKeywordRelevance, keywordHit]
    decide

/-- C3 (amended).  When keyword terms are supplied, hybridSearch filters the
thresholded vector results to those whose chunk text contains at least one
keyword (case-insensitively) and returns at most topK of them; each returned
result's score is the unmodified vector similarity of its store match — the
vectorWeight/keywordWeight weighted sum of the spec is never computed. -/
theorem hybridSearch_amended (storeMatches : List StoreMatch) (keywords : List Str)
    (topK : Nat) (threshold : ℚ) (hk : keywords ≠ []) :
    (hybridSearch storeMatches keywords topK threshold).length ≤ topK ∧
    ∀ r ∈ hybridSearch storeMatches keywords topK threshold,
      ∃ m ∈ storeMatches, r = toResult m ∧ r.similarity = m.score ∧
        threshold ≤ m.score ∧ keywordHit keywords m.chunkText = true := by
  constructor
  · simp only [hybridSearch, if_pos hk]
    exact List.length_take_le _ _
  · intro r hr
    simp only [hybridSearch, if_pos hk] at hr
    have hr2 : r ∈ (searchSimilarVectors storeMatches threshold).filter
        (fun r => keywordHit keywords r.chunkText) := List.mem_of_mem_take hr
    obtain ⟨hr3, hkw⟩ := List.mem_filter.mp hr2
    obtain ⟨m, hm, hmr⟩ := List.mem_map.mp hr3
    obtain ⟨hm2, hms⟩ := List.mem_filter.mp hm
    refine ⟨m, hm2, hmr.symm, by rw [← hmr]; rfl, ?_, ?_⟩
    · simpa using hms
    · rw [← hmr] at hkw
      exact hkw

/-- Witness for C3 (amended): the concrete single-match store with a matching
keyword. -/
theorem hybridSearch_amended_witness :
    (hybridSearch storeC3 [("revenue").data] 10 (1/2)).length ≤ 10 ∧
    ∀ r ∈ hybridSearch storeC3 [("revenue").data] 10 (1/2),
      ∃ m ∈ storeC3, r = toResult m ∧ r.similarity = m.score ∧
        (1/2 : ℚ) ≤ m.score ∧ keywordHit [("revenue").data] m.chunkText = true :=
  hybridSearch_amended storeC3 [("revenue").data] 10 (1/2) (by simp)

/-- The outcome of the request validation in a route handler. -/
inductive RouteOutcome where
  | badRequest (msg : String)
  | accepted
deriving DecidableEq

/-- The 400 message of the hybrid route's weight validation
(backend/routes/search.js line 122). -/
def hybridWeightsMsg : String := "vectorWeight + keywordWeight must equal 1.0"

/-- The 400 message of the hybrid route's query validation
(backend/routes/search.js line 114). -/
def hybridQueryMsg : String := "Valid search query is required"

/-- The input validation of POST /api/search/hybrid (backend/routes/search.js
lines 101-124): reject an empty/blank query, then reject weights not summing
to 1.0, otherwise proceed to the hybrid search.  Weights are rationals; the
route's JavaScript double comparison also accepts the 0.7/0.3 defaults, since
0.7 + 0.3 rounds to exactly 1.0 in binary64. -/
def hybridRouteGate (query : Str) (vectorWeight keywordWeight : ℚ) : RouteOutcome :=
  if (trimStr query).length = 0 then .badRequest hybridQueryMsg
  else if vectorWeight + keywordWeight ≠ 1 then .badRequest hybridWeightsMsg
  else .accepted

/-- C8.  For every hybrid request with a non-blank query, the route rejects
with the weight error exactly when vectorWeight + keywordWeight ≠ 1.0,
accepts whenever the weights sum to 1.0, and in particular accepts the
documented defaults vectorWeight = 0.7, keywordWeight = 0.3. -/
theorem hybridRouteGate_spec (query : Str) (vw kw : ℚ)
    (hq : (trimStr query).length ≠ 0) :
    (hybridRouteGate query vw kw = .badRequest hybridWeightsMsg ↔ vw + kw ≠ 1) ∧
    (vw + kw = 1 → hybridRouteGate query vw kw = .accepted) ∧
    hybridRouteGate query (7/10) (3/10) = .accepted := by
  refine ⟨⟨?_, ?_⟩, ?_, ?_⟩
  · intro h hsum
    unfold hybridRouteGate at h
    rw [if_neg hq, if_neg (by simpa using hsum)] at h
    exact absurd h (by simp)
  · intro hsum
    unfold hybridRouteGate
    rw [if_neg hq, if_pos hsum]
  · intro hsum
    unfold hybridRouteGate
    rw [if_neg hq, if_neg (by simpa using hsum)]
  · unfold hybridRouteGate
    rw [if_neg hq, if_neg (by norm_num)]

/-- Witness for C8: the concrete query "revenue" with weights 0.5/0.5 and the
0.7/0.3 defaults. -/
theorem hybridRouteGate_spec_witness :
    (hybridRouteGate ("revenue").data (1/2) (1/2) = .badRequest hybridWeightsMsg ↔
      (1/2 : ℚ) + 1/2 ≠ 1) ∧
    ((1/2 : ℚ) + 1/2 = 1 → hybridRouteGate ("revenue").data (1/2) (1/2) = .accepted) ∧
    hybridRouteGate ("revenue").data (7/10) (3/10) = .accepted :=
  hybridRouteGate_spec ("revenue").data (1/2) (1/2) (by decide)

/-- Embedding configuration (backend/nlp/embeddings.js): the configured
vector dimension (VECTOR_DIMENSIONS, default 768) and the retry cap
(API_RETRY_ATTEMPTS, default 3). -/
structure EmbedEnv where
  expectedDim : Nat
  maxRetries : Nat
deriving DecidableEq

/-- One response of the external embedding provider (the Gemini collaborator):
either a vector, or a thrown error (timeouts, HTTP errors and malformed
responses all surface as thrown errors in the source and are modelled by the
message). -/
inductive PResp where
  | vec (v : List Int)
  | failure (msg : String)
deriving DecidableEq

/-- The module state of backend/nlp/embeddings.js: the embedding cache (keyed
by the md5 of the text, modelled by the text itself since the key is
content-determined), the number of provider calls made, and the number of
passes through the waitForRateLimit gate. -/
structure EmbedSt where
  cache : List (Str × List Int)
  providerCalls : Nat
  gatePasses : Nat
deriving DecidableEq

/-- Cache lookup (embeddingCache.has/get at backend/nlp/embeddings.js lines
76-78). -/
def lookupCache (cache : List (Str × List Int)) (key : Str) : Option (List Int) :=
  match cache.find? (fun e => e.1 == key) with
  | some e => some e.2
  | none => none

/-- The dimension-mismatch message (backend/nlp/embeddings.js line 107). -/
def dimMismatchMsg (expected got : Nat) : String :=
  "Embedding dimension mismatch: expected " ++ toString expected ++ ", got " ++ toString got

/-- The final failure message (backend/nlp/embeddings.js line 130). -/
def finalFailMsg (attempts : Nat) (lastErr : String) : String :=
  "Failed to generate embedding after " ++ toString attempts ++ " attempts: " ++ lastErr

/-- The invalid-input message (backend/nlp/embeddings.js line 71). -/
def invalidTextMsg : String := "Invalid text input for embedding generation"

/-- The retry loop of generateEmbedding (backend/nlp/embeddings.js lines
83-130).  Each attempt passes the rate-limiter gate, calls the provider
(indexed by the global call counter), and validates the returned vector's
dimension; every caught error — including a dimension mismatch — falls
through to the next attempt after backoff; a successful, validated vector is
cached (when caching is on) and returned; exhausting the attempts surfaces
the last error annotated with the attempt count. -/
def embedAttempts (env : EmbedEnv) (provider : Nat → PResp) (text : Str) (useCache : Bool) :
    Nat → String → EmbedSt → Except String (List Int) × EmbedSt
  | 0, lastErr, st => (Except.error (finalFailMsg env.maxRetries lastErr), st)
  | n + 1, _, st =>
    match provider st.providerCalls with
    | .failure m =>
      embedAttempts env provider text useCache n m
        ⟨st.cache, st.providerCalls + 1, st.gatePasses + 1⟩
    | .vec v =>
      if v.length ≠ env.expectedDim then
        embedAttempts env provider text useCache n (dimMismatchMsg env.expectedDim v.length)
          ⟨st.cache, st.providerCalls + 1, st.gatePasses + 1⟩
      else if useCache then
        (Except.ok v, ⟨(text, v) :: st.cache, st.providerCalls + 1, st.gatePasses + 1⟩)
      else (Except.ok v, ⟨st.cache, st.providerCalls + 1, st.gatePasses + 1⟩)

/-- generateEmbedding from backend/nlp/embeddings.js lines 63-131: reject
blank text, return a cache hit immediately (before the rate limiter and the
provider), otherwise run the retry loop. -/
def generateEmbedding (env : EmbedEnv) (provider : Nat → PResp) (useCache : Bool)
    (text : Str) (st : EmbedSt) : Except String (List Int) × EmbedSt :=
  if (trimStr text).length = 0 then (Except.error invalidTextMsg, st)
  else
    match (if useCache then lookupCache st.cache text else none) with
    | some v => (Except.ok v, st)
    | none => embedAttempts env provider text useCache env.maxRetries "" st

theorem lookupCache_insert (cache : List (Str × List Int)) (text : Str) (v : List Int) :
    lookupCache ((text, v) :: cache) text = some v := by
  unfold lookupCache
  rw [List.find?_cons_of_pos _ (by simp)]

theorem embedAttempts_ok_cached (env : EmbedEnv) (provider : Nat → PResp) (text : Str) :
    ∀ (n : Nat) (e : String) (st : EmbedSt) (v : List Int) (st1 : EmbedSt),
      embedAttempts env provider text true n e st = (Except.ok v, st1) →
      lookupCache st1.cache text = some v := by
  intro n
  induction n with
  | zero =>
    intro e st v st1 h
    simp [embedAttempts] at h
  | succ n ih =>
    intro e st v st1 h
    rw [embedAttempts] at h
    split at h
    · exact ih _ _ _ _ h
    · split at h
      · exact ih _ _ _ _ h
      · simp only [if_true] at h
        have h1 := congrArg Prod.fst h
        have h3 := congrArg Prod.snd h
        simp only at h1 h3
        injection h1 with h2
        rw [← h3, ← h2]
        exact lookupCache_insert _ _ _

/-- C4.  If a call to generateEmbedding with caching enabled returns a vector
v leaving state st1, then a second call with the identical text returns the
bit-identical v and the state unchanged: in particular the second call makes
no provider call and does not pass the rate-limiter gate (the cache hit
returns before both). -/
theorem generateEmbedding_cached_idempotent (env : EmbedEnv) (provider : Nat → PResp)
    (text : Str) (st st1 : EmbedSt) (v : List Int)
    (h : generateEmbedding env provider true text st = (Except.ok v, st1)) :
    generateEmbedding env provider true text st1 = (Except.ok v, st1) ∧
    (generateEmbedding env provider true text st1).2.providerCalls = st1.providerCalls ∧
    (generateEmbedding env provider true text st1).2.gatePasses = st1.gatePasses := by
  have htr : ¬ (trimStr text).length = 0 := by
    intro h0
    unfold generateEmbedding at h
    rw [if_pos h0] at h
    have := congrArg Prod.fst h
    simp at this
  have hcached : lookupCache st1.cache text = some v := by
    unfold generateEmbedding at h
    rw [if_neg htr] at h
    simp only [if_true] at h
    cases hl : lookupCache st.cache text with
    | some w =>
      rw [hl] at h
      have h1 : Except.ok w = (Except.ok v : Except String (List Int)) := congrArg Prod.fst h
      have h2 : w = v := by simpa using h1
      have h3 : st1 = st := (congrArg Prod.snd h).symm
      rw [h3, hl, h2]
    | none =>
      rw [hl] at h
      exact embedAttempts_ok_cached env provider text _ _ _ _ _ h
  have h2 : generateEmbedding env provider true text st1 = (Except.ok v, st1) := by
    unfold generateEmbedding
    rw [if_neg htr]
    simp only [if_true]
    rw [hcached]
  exact ⟨h2, by rw [h2], by rw [h2]⟩

/-- Concrete configuration for the C4 witness: dimension 2, 3 retries, a
provider that always returns the vector [1, 2]. -/
def envW4 : EmbedEnv := ⟨2, 3⟩

def provW4 : Nat → PResp := fun _ => PResp.vec [1, 2]

/-- The state after the first call of the C4 witness: the vector cached, one
provider call, one rate-gate pass. -/
def stW4 : EmbedSt := ⟨[(("hello").data, [1, 2])], 1, 1⟩

/-- Witness for C4: after a first call from the empty state (which calls the
provider once), the second call returns the identical vector with no further
provider call and no rate-gate pass. -/
theorem generateEmbedding_cached_idempotent_witness :
    generateEmbedding envW4 provW4 true ("hello").data stW4 = (Except.ok [1, 2], stW4) ∧
    (generateEmbedding envW4 provW4 true ("hello").data stW4).2.providerCalls =
      stW4.providerCalls ∧
    (generateEmbedding envW4 provW4 true ("hello").data stW4).2.gatePasses =
      stW4.gatePasses :=
  generateEmbedding_cached_idempotent envW4 provW4 ("hello").data ⟨[], 0, 0⟩ stW4 [1, 2] rfl

/-- Concrete configuration for the C2 counterexample: the index expects
dimension 3, the provider always returns a 2-dimensional vector, 3 retries
are configured. -/
def envC2 : EmbedEnv := ⟨3, 3⟩

def provC2 : Nat → PResp := fun _ => PResp.vec [1, 2]

/-- C2 counterexample.  With every provider response a dimension mismatch,
generateEmbedding makes all 3 provider calls — the first mismatch is caught
by the generic handler and retried like any other failure — and only then
fails, with the final error wrapping the mismatch message in the
attempts-exhausted message.  The claim says the first mismatch fails
immediately with no further attempts, i.e. exactly one provider call. -/
theorem generateEmbedding_dim_retry_counterexample :
    (generateEmbedding envC2 provC2 true ("quarterly report").data ⟨[], 0, 0⟩).1 =
      Except.error (finalFailMsg 3 (dimMismatchMsg 3 2)) ∧
    (generateEmbedding envC2 provC2 true ("quarterly report").data ⟨[], 0, 0⟩).2.providerCalls
      = 3 ∧
    (generateEmbedding envC2 provC2 true ("quarterly report").data ⟨[], 0, 0⟩).2.providerCalls
      ≠ 1 := by
  refine ⟨rfl, by decide, by decide⟩

theorem embedAttempts_dim_mismatch_all (env : EmbedEnv) (provider : Nat → PResp)
    (text : Str) (bv : List Int)
    (hprov : ∀ k, provider k = PResp.vec bv) (hbad : bv.length ≠ env.expectedDim) :
    ∀ (n : Nat) (e : String) (st : EmbedSt), 0 < n →
      embedAttempts env provider text true n e st =
        (Except.error (finalFailMsg env.maxRetries (dimMismatchMsg env.expectedDim bv.length)),
         ⟨st.cache, st.providerCalls + n, st.gatePasses + n⟩) := by
  intro n
  induction n with
  | zero => intro e st h; omega
  | succ n ih =>
    intro e st _
    rw [embedAttempts]
    simp only [hprov st.providerCalls]
    rw [if_pos hbad]
    cases n with
    | zero => rw [embedAttempts]
    | succ m =>
      rw [ih _ _ (Nat.succ_pos m)]
      have h1 : st.providerCalls + 1 + (m + 1) = st.providerCalls + (m + 1 + 1) := by omega
      have h2 : st.gatePasses + 1 + (m + 1) = st.gatePasses + (m + 1 + 1) := by omega
      rw [h1, h2]

/-- C2 (amended).  A dimension mismatch is raised as an error but caught by
the generic retry handler and retried with backoff like any other failure: a
cache-missing call whose provider responses are all wrong-dimension vectors
makes exactly maxRetries provider calls (and rate-gate passes) and then fails
with the mismatch message wrapped in the attempts-exhausted error.  Only the
input validation rejects without retrying; no error class is exempt from the
retry loop. -/
theorem generateEmbedding_dim_mismatch_retried (env : EmbedEnv) (provider : Nat → PResp)
    (text : Str) (st : EmbedSt) (bv : List Int)
    (hret : 0 < env.maxRetries) (htext : ¬ (trimStr text).length = 0)
    (hnocache : lookupCache st.cache text = none)
    (hprov : ∀ k, provider k = PResp.vec bv)
    (hbad : bv.length ≠ env.expectedDim) :
    generateEmbedding env provider true text st =
      (Except.error (finalFailMsg env.maxRetries (dimMismatchMsg env.expectedDim bv.length)),
       ⟨st.cache, st.providerCalls + env.maxRetries, st.gatePasses + env.maxRetries⟩) := by
  unfold generateEmbedding
  rw [if_neg htext]
  simp only [if_true]
  rw [hnocache]
  exact embedAttempts_dim_mismatch_all env provider text bv hprov hbad env.maxRetries "" st hret

/-- Witness for C2 (amended): the concrete wrong-dimension provider makes
exactly 3 calls from the empty state. -/
theorem generateEmbedding_dim_mismatch_retried_witness :
    generateEmbedding envC2 provC2 true ("quarterly report").data ⟨[], 0, 0⟩ =
      (Except.error (finalFailMsg envC2.maxRetries (dimMismatchMsg envC2.expectedDim 2)),
       ⟨[], 0 + envC2.maxRetries, 0 + envC2.maxRetries⟩) :=
  generateEmbedding_dim_mismatch_retried envC2 provC2 ("quarterly report").data ⟨[], 0, 0⟩
    [1, 2] (by decide) (by decide) rfl (fun _ => rfl) (by decide)

/-- The result record built by generateBatchWithErrorHandling
(backend/nlp/embeddings.js lines 344-349): embeddings (null for failed
items), per-index error entries, and the success/failure counters. -/
structure BatchAcc where
  embeddings : List (Option (List Int))
  errors : List (Nat × String)
  successCount : Nat
  failureCount : Nat
deriving DecidableEq

/-- The per-item loop of generateBatchWithErrorHandling
(backend/nlp/embeddings.js lines 351-367): each text is embedded through the
supplied single-embed function (threading the cache/rate state); a success
pushes the vector and bumps successCount; a caught error pushes null, records
(index, message) and bumps failureCount; the loop never rethrows. -/
def batchGo (embedFn : Str → EmbedSt → Except String (List Int) × EmbedSt) :
    List Str → Nat → EmbedSt → BatchAcc → BatchAcc × EmbedSt
  | [], _, st, acc => (acc, st)
  | t :: rest, i, st, acc =>
    match embedFn t st with
    | (Except.ok v, st2) =>
      batchGo embedFn rest (i + 1) st2
        ⟨acc.embeddings ++ [some v], acc.errors, acc.successCount + 1, acc.failureCount⟩
    | (Except.error m, st2) =>
      batchGo embedFn rest (i + 1) st2
        ⟨acc.embeddings ++ [none], acc.errors ++ [(i, m)], acc.successCount,
          acc.failureCount + 1⟩

/-- generateBatchWithErrorHandling from backend/nlp/embeddings.js lines
339-370: an invalid (empty) texts array throws; otherwise the per-item loop
runs to completion and the result record is returned — no exception escapes
an individual item failure. -/
def generateBatchWithErrorHandling (embedFn : Str → EmbedSt → Except String (List Int) × EmbedSt)
    (texts : List Str) (st : EmbedSt) : Except String (BatchAcc × EmbedSt) :=
  if texts = [] then Except.error "Invalid texts array"
  else Except.ok (batchGo embedFn texts 0 st ⟨[], [], 0, 0⟩)

theorem batchGo_spec (embedFn : Str → EmbedSt → Except String (List Int) × EmbedSt) :
    ∀ (texts : List Str) (i : Nat) (st : EmbedSt) (acc : BatchAcc),
      ∃ newEmb newErrs stOut,
        batchGo embedFn texts i st acc =
          (⟨acc.embeddings ++ newEmb, acc.errors ++ newErrs,
            acc.successCount + (texts.length - newErrs.length),
            acc.failureCount + newErrs.length⟩, stOut) ∧
        newEmb.length = texts.length ∧
        newErrs.length ≤ texts.length ∧
        (∀ e ∈ newErrs, i ≤ e.1 ∧ e.1 < i + texts.length ∧ newEmb.get? (e.1 - i) = some none) := by
  intro texts
  induction texts with
  | nil =>
    intro i st acc
    refine ⟨[], [], st, ?_, rfl, Nat.le_refl _, by intro e he; simp at he⟩
    simp [batchGo]
  | cons t rest ih =>
    intro i st acc
    rcases hfn : embedFn t st with ⟨res, st2⟩
    cases res with
    | ok v =>
      obtain ⟨nE, nErr, stOut, heq, hlen, hle, herrs⟩ :=
        ih (i + 1) st2 ⟨acc.embeddings ++ [some v], acc.errors, acc.successCount + 1,
          acc.failureCount⟩
      refine ⟨some v :: nE, nErr, stOut, ?_, by simp [hlen], by simp; omega, ?_⟩
      · simp only at heq
        rw [batchGo]
        simp only [hfn, heq]
        have hsucc : acc.successCount + 1 + (rest.length - nErr.length) =
            acc.successCount + ((t :: rest).length - nErr.length) := by
          simp only [List.length_cons]
          omega
        simp only [List.append_assoc, List.singleton_append, hsucc]
      · intro e he
        obtain ⟨h1, h2, h3⟩ := herrs e he
        refine ⟨by omega, by simp; omega, ?_⟩
        have hpos : i + 1 ≤ e.1 := h1
        have : e.1 - i = (e.1 - (i + 1)) + 1 := by omega
        rw [this]
        simpa using h3
    | error m =>
      obtain ⟨nE, nErr, stOut, heq, hlen, hle, herrs⟩ :=
        ih (i + 1) st2 ⟨acc.embeddings ++ [none], acc.errors ++ [(i, m)], acc.successCount,
          acc.failureCount + 1⟩
      refine ⟨none :: nE, (i, m) :: nErr, stOut, ?_, by simp [hlen], by simp; omega, ?_⟩
      · simp only at heq
        rw [batchGo]
        simp only [hfn, heq]
        have hsucc : acc.successCount + (rest.length - nErr.length) =
            acc.successCount + ((t :: rest).length - ((i, m) :: nErr).length) := by
          simp only [List.length_cons]
          omega
        have hfail : acc.failureCount + 1 + nErr.length =
            acc.failureCount + ((i, m) :: nErr).length := by
          simp only [List.length_cons]
          omega
        simp only [List.append_assoc, List.singleton_append, hsucc, hfail]
      · intro e he
        rcases List.mem_cons.mp he with h | h
        · subst h
          exact ⟨Nat.le_refl _, by simp, by simp⟩
        · obtain ⟨h1, h2, h3⟩ := herrs e h
          refine ⟨by omega, by simp; omega, ?_⟩
          have : e.1 - i = (e.1 - (i + 1)) + 1 := by omega
          rw [this]
          simpa using h3

/-- C7.  For every non-empty batch whose per-item runs record exactly one
error entry (index i, message m), generateBatchWithErrorHandling throws no
exception, returns N − 1 successes and exactly 1 failure, records null at
position i of the embeddings, and i is a valid index. -/
theorem generateBatchWithErrorHandling_single_failure
    (embedFn : Str → EmbedSt → Except String (List Int) × EmbedSt)
    (texts : List Str) (st : EmbedSt) (i : Nat) (m : String) (hne : texts ≠ [])
    (herr : (batchGo embedFn texts 0 st ⟨[], [], 0, 0⟩).1.errors = [(i, m)]) :
    generateBatchWithErrorHandling embedFn texts st =
      Except.ok (batchGo embedFn texts 0 st ⟨[], [], 0, 0⟩) ∧
    (batchGo embedFn texts 0 st ⟨[], [], 0, 0⟩).1.successCount = texts.length - 1 ∧
    (batchGo embedFn texts 0 st ⟨[], [], 0, 0⟩).1.failureCount = 1 ∧
    (batchGo embedFn texts 0 st ⟨[], [], 0, 0⟩).1.embeddings.length = texts.length ∧
    i < texts.length ∧
    (batchGo embedFn texts 0 st ⟨[], [], 0, 0⟩).1.embeddings.get? i = some none := by
  obtain ⟨nE, nErr, stOut, heq, hlen, hle, herrs⟩ := batchGo_spec embedFn texts 0 st ⟨[], [], 0, 0⟩
  rw [heq] at herr
  simp only [List.nil_append] at herr
  have hnerr : nErr = [(i, m)] := herr
  have hmem : (i, m) ∈ nErr := by rw [hnerr]; simp
  obtain ⟨_, hlt, hget⟩ := herrs (i, m) hmem
  refine ⟨?_, ?_, ?_, ?_, ?_, ?_⟩
  · unfold generateBatchWithErrorHandling
    rw [if_neg hne]
  · rw [heq]
    simp [hnerr]
  · rw [heq]
    simp [hnerr]
  · rw [heq]
    simpa using hlen
  · simpa using hlt
  · rw [heq]
    simpa using hget

/-- Configuration for the C7 witness: dimension 2, a single retry, a provider
failing exactly on its fifth call (which serves text index 4 of the batch). -/
def envB7 : EmbedEnv := ⟨2, 1⟩

def provB7 : Nat → PResp := fun k => if k = 4 then PResp.failure "auth" else PResp.vec [1, 2]

def textsB7 : List Str :=
  [("t0").data, ("t1").data, ("t2").data, ("t3").data, ("t4").data,
   ("t5").data, ("t6").data, ("t7").data, ("t8").data, ("t9").data]

/-- Witness for C7: 10 texts where item 4 hits a permanent provider error
yield 9 successes and 1 failure entry at index 4, with no exception. -/
theorem generateBatchWithErrorHandling_single_failure_witness :
    generateBatchWithErrorHandling (generateEmbedding envB7 provB7 true) textsB7 ⟨[], 0, 0⟩ =
      Except.ok (batchGo (generateEmbedding envB7 provB7 true) textsB7 0 ⟨[], 0, 0⟩
        ⟨[], [], 0, 0⟩) ∧
    (batchGo (generateEmbedding envB7 provB7 true) textsB7 0 ⟨[], 0, 0⟩
        ⟨[], [], 0, 0⟩).1.successCount = textsB7.length - 1 ∧
    (batchGo (generateEmbedding envB7 provB7 true) textsB7 0 ⟨[], 0, 0⟩
        ⟨[], [], 0, 0⟩).1.failureCount = 1 ∧
    (batchGo (generateEmbedding envB7 provB7 true) textsB7 0 ⟨[], 0, 0⟩
        ⟨[], [], 0, 0⟩).1.embeddings.length = textsB7.length ∧
    4 < textsB7.length ∧
    (batchGo (generateEmbedding envB7 provB7 true) textsB7 0 ⟨[], 0, 0⟩
        ⟨[], [], 0, 0⟩).1.embeddings.get? 4 = some none :=
  generateBatchWithErrorHandling_single_failure (generateEmbedding envB7 provB7 true)
    textsB7 ⟨[], 0, 0⟩ 4 (finalFailMsg 1 "auth") (by decide) (by decide)

end RagFin
